import Mathlib

/-
Verification of the undo/redo command-history engine in
src/behavioral/command.ts (classes TextEditor, TypeCommand, CommandManager).

Modelling conventions for the shallow embedding:
* The TypeScript classes mutate a shared `TextEditor` through references held
  inside each command object.  Here the mutable target is threaded explicitly:
  an engine state bundles the manager's `commands` array, its `index` cursor
  and the current target value.
* A command's `execute`/`undo` methods return `Option T`: `some t` is a normal
  return leaving the target equal to `t`; `none` models the method throwing an
  exception.  In TypeScript an exception aborts the caller at the call site,
  so every statement the source runs before the call is kept and every
  statement after it is dropped.
* `console.log("No command to undo.")` / `console.log("No command to redo.")`
  are the engine's observable refusals; they are modelled as the error values
  `NothingToUndo` / `NothingToRedo`.  A propagated command exception is
  `OpFailed`; an `undefined` array element being called (impossible in
  reachable states) is `Crash`.
* JavaScript `array.splice(start)` with a possibly negative `start` keeps the
  first `max(length+start,0)` elements; `array[i]` with negative or
  out-of-range `i` yields `undefined`.  `jsSpliceKeep` and `jsGet` embed
  exactly these semantics.
-/

namespace CommandTs

/-- The `Command` interface of the source: `execute(): void` and
`undo(): void`, acting on the shared target; `none` models a throw. -/
structure Command (T : Type) where
  execute : T → Option T
  undo : T → Option T

/-- Observable failure signals of the engine (see the modelling notes above). -/
inductive EngineError where
  | NothingToUndo
  | NothingToRedo
  | OpFailed
  | Crash
deriving DecidableEq

/-- State of a `CommandManager` together with the shared mutable target:
`commands: Command[] = []`, `index: number = -1`, plus the target the
commands' held references point at. -/
structure EngineState (T : Type) where
  commands : List (Command T)
  index : Int
  target : T

/-- JavaScript `array[i]`: `undefined` (here `none`) for a negative or
out-of-range index. -/
def jsGet {α : Type} (l : List α) (i : Int) : Option α :=
  if i < 0 then none else l.get? i.toNat

/-- The part of the array that `array.splice(start)` keeps: the first
`start` elements, where a negative `start` counts from the end and is
clamped at `0`. -/
def jsSpliceKeep {α : Type} (l : List α) (start : Int) : List α :=
  if start < 0 then l.take ((l.length : Int) + start).toNat else l.take start.toNat

namespace CommandManager

/-- The state right after `new TextEditor()` / `new CommandManager()`:
empty record, `index = -1`, target as constructed by the host. -/
def initial {T : Type} (t0 : T) : EngineState T :=
  ⟨[], -1, t0⟩

/-- `executeCommand`: run `command.execute()` first (a throw leaves the
manager untouched and propagates), then `splice(index+1)`, `push(command)`,
`index++`. -/
def executeCommand {T : Type} (c : Command T) (s : EngineState T) :
    EngineState T × Option EngineError :=
  match c.execute s.target with
  | none => (s, some EngineError.OpFailed)
  | some t =>
      (⟨jsSpliceKeep s.commands (s.index + 1) ++ [c], s.index + 1, t⟩, none)

/-- `undo`: if `index >= 0`, fetch `commands[index]`, run its `undo()`
(a throw propagates before `index--` runs), then decrement `index`;
otherwise log "No command to undo.". -/
def undo {T : Type} (s : EngineState T) : EngineState T × Option EngineError :=
  if 0 ≤ s.index then
    match jsGet s.commands s.index with
    | some c =>
        match c.undo s.target with
        | some t => (⟨s.commands, s.index - 1, t⟩, none)
        | none => (s, some EngineError.OpFailed)
    | none => (s, some EngineError.Crash)
  else
    (s, some EngineError.NothingToUndo)

/-- `redo`: if `index + 1 < commands.length`, increment `index` first, then
fetch `commands[index]` and run its `execute()` (a throw propagates with the
increment already applied); otherwise log "No command to redo.". -/
def redo {T : Type} (s : EngineState T) : EngineState T × Option EngineError :=
  if s.index + 1 < (s.commands.length : Int) then
    match jsGet s.commands (s.index + 1) with
    | some c =>
        match c.execute s.target with
        | some t => (⟨s.commands, s.index + 1, t⟩, none)
        | none => (⟨s.commands, s.index + 1, s.target⟩, some EngineError.OpFailed)
    | none => (⟨s.commands, s.index + 1, s.target⟩, some EngineError.Crash)
  else
    (s, some EngineError.NothingToRedo)

end CommandManager

/-- Modelled from the spec: `canUndo` is absent from src/behavioral/command.ts;
spec section 6 describes it as a pure query derived from `index`, and the
source's `undo` guard is `this.index >= 0`. -/
def canUndo {T : Type} (s : EngineState T) : Bool :=
  decide (0 ≤ s.index)

/-- Modelled from the spec: `canRedo` is absent from src/behavioral/command.ts;
spec section 6 describes it as a pure query derived from `index` and the
record length, and the source's `redo` guard is
`this.index + 1 < this.commands.length`. -/
def canRedo {T : Type} (s : EngineState T) : Bool :=
  decide (s.index + 1 < (s.commands.length : Int))

/-- Modelled from the spec: the capacity/eviction policy (`maxHistory`,
spec section 4.2 step 3 and Invariant 3) is absent from
src/behavioral/command.ts.  After a successful append, if the record length
exceeds the bound, the entry at position 0 is removed and `index` is
decremented by one. -/
def executeCommandBounded {T : Type} (maxHistory : Nat) (c : Command T)
    (s : EngineState T) : EngineState T × Option EngineError :=
  match CommandManager.executeCommand c s with
  | (s', none) =>
      if (maxHistory : Int) < (s'.commands.length : Int) then
        (⟨s'.commands.drop 1, s'.index - 1, s'.target⟩, none)
      else
        (s', none)
  | r => r

/-- `TextEditor.type`: `this.text += text`.  The buffer is a list of
characters (one per UTF-16 unit of the source's string). -/
def TextEditor.type (buf t : List Char) : List Char :=
  buf ++ t

/-- `TextEditor.delete`: `this.text = this.text.slice(0, -1)` drops the last
unit (a no-op on the empty buffer). -/
def TextEditor.delete (buf : List Char) : List Char :=
  buf.dropLast

/-- The loop body of `TypeCommand.undo`: apply `TextEditor.delete` `n` times. -/
def deleteN : Nat → List Char → List Char
  | 0, buf => buf
  | n + 1, buf => deleteN n (TextEditor.delete buf)

/-- `TypeCommand`: `execute` types the stored text, `undo` deletes
`text.length` times.  Neither method throws. -/
def TypeCommand (t : List Char) : Command (List Char) :=
  ⟨fun buf => some (TextEditor.type buf t),
   fun buf => some (deleteN t.length buf)⟩

/-- States reachable from a freshly constructed engine by any sequence of
`executeCommand` (with any command), `undo` and `redo` calls, successful or
failing. -/
inductive Reachable {T : Type} (t0 : T) : EngineState T → Prop
  | init : Reachable t0 (CommandManager.initial t0)
  | exec {s : EngineState T} (c : Command T) :
      Reachable t0 s → Reachable t0 (CommandManager.executeCommand c s).1
  | undoStep {s : EngineState T} :
      Reachable t0 s → Reachable t0 (CommandManager.undo s).1
  | redoStep {s : EngineState T} :
      Reachable t0 s → Reachable t0 (CommandManager.redo s).1

/-- The client-code scenario: execute `TypeCommand`s for a list of texts in
order, starting from the freshly constructed editor and manager. -/
def runExec (ts : List (List Char)) : EngineState (List Char) :=
  ts.foldl (fun s t => (CommandManager.executeCommand (TypeCommand t) s).1)
    (CommandManager.initial [])

/-- Concatenation of a list of text buffers, front to back. -/
def concatAll (ts : List (List Char)) : List Char :=
  ts.foldl (fun a b => a ++ b) []

/-- A command whose `execute` and `undo` both throw, exercising the failure
paths of the engine. -/
def failCmd : Command (List Char) :=
  ⟨fun _ => none, fun _ => none⟩

/-- A valid engine state with one recorded command and `index = 0`, used to
instantiate the `undo` contract. -/
def undoWitnessState : EngineState (List Char) :=
  ⟨[TypeCommand ['x']], 0, ['x']⟩

/-- An engine state holding one throwing command with the cursor before it:
`redo` will increment the cursor and then see the command throw. -/
def redoFailState : EngineState (List Char) :=
  ⟨[failCmd], -1, []⟩

/-- First client step: `executeCommand(new TypeCommand(editor, "Hello"))`. -/
def scenario1 : EngineState (List Char) :=
  (CommandManager.executeCommand (TypeCommand "Hello".toList)
    (CommandManager.initial [])).1

/-- Second client step: `executeCommand(new TypeCommand(editor, " World!"))`. -/
def scenario2 : EngineState (List Char) :=
  (CommandManager.executeCommand (TypeCommand " World!".toList) scenario1).1

/-- Third client step: `undo()`. -/
def scenario3 : EngineState (List Char) :=
  (CommandManager.undo scenario2).1

/-- Fourth client step: `redo()`. -/
def scenario4 : EngineState (List Char) :=
  (CommandManager.redo scenario3).1

/-- Capacity scenario, step 1: execute `A` with `maxHistory = 2`. -/
def boundedStep1 : EngineState (List Char) :=
  (executeCommandBounded 2 (TypeCommand ['a']) (CommandManager.initial [])).1

/-- Capacity scenario, step 2: execute `B` with `maxHistory = 2`. -/
def boundedStep2 : EngineState (List Char) :=
  (executeCommandBounded 2 (TypeCommand ['b']) boundedStep1).1

/-- Capacity scenario, step 3: execute `C` with `maxHistory = 2`. -/
def boundedStep3 : EngineState (List Char) :=
  (executeCommandBounded 2 (TypeCommand ['c']) boundedStep2).1

/-- C9: starting from an empty buffer, `execute(Insert("Hello"))` yields
"Hello", `execute(Insert(" World!"))` yields "Hello World!", `undo()` yields
"Hello", `redo()` yields "Hello World!". -/
theorem hello_world_scenario :
    scenario1.target = "Hello".toList ∧
    scenario2.target = "Hello World!".toList ∧
    scenario3.target = "Hello".toList ∧
    scenario4.target = "Hello World!".toList := by
  refine ⟨by decide, by decide, by decide, by decide⟩

/-- C4: with `maxHistory = 2`, executing `A, B, C` leaves exactly `{B, C}` in
the record with `index` adjusted to `1`; two `undo()` calls succeed and a
third fails with `NothingToUndo`. -/
theorem capacity_eviction_scenario :
    boundedStep3.commands = [TypeCommand ['b'], TypeCommand ['c']] ∧
    boundedStep3.index = 1 ∧
    (CommandManager.undo boundedStep3).2 = none ∧
    (CommandManager.undo (CommandManager.undo boundedStep3).1).2 = none ∧
    (CommandManager.undo (CommandManager.undo boundedStep3).1).1.index = -1 ∧
    (CommandManager.undo
      (CommandManager.undo (CommandManager.undo boundedStep3).1).1).2
      = some EngineError.NothingToUndo := by
  refine ⟨rfl, by decide, by decide, by decide, by decide, by decide⟩

/-- C5: if the command's `execute` throws during `executeCommand`, the record
length and `index` are unchanged and the error propagates to the caller. -/
theorem execute_failure_atomic {T : Type} (s : EngineState T) (c : Command T)
    (h : c.execute s.target = none) :
    (CommandManager.executeCommand c s).1.commands.length = s.commands.length ∧
    (CommandManager.executeCommand c s).1.index = s.index ∧
    (CommandManager.executeCommand c s).2 = some EngineError.OpFailed := by
  simp [CommandManager.executeCommand, h]

/-- Witness for `execute_failure_atomic` at the always-throwing command and
the freshly constructed engine. -/
theorem execute_failure_atomic_witness :
    failCmd.execute (CommandManager.initial ([] : List Char)).target = none ∧
    ((CommandManager.executeCommand failCmd
        (CommandManager.initial ([] : List Char))).1.commands.length
      = (CommandManager.initial ([] : List Char)).commands.length ∧
     (CommandManager.executeCommand failCmd
        (CommandManager.initial ([] : List Char))).1.index
      = (CommandManager.initial ([] : List Char)).index ∧
     (CommandManager.executeCommand failCmd
        (CommandManager.initial ([] : List Char))).2
      = some EngineError.OpFailed) :=
  ⟨rfl, execute_failure_atomic (CommandManager.initial []) failCmd rfl⟩

/-- C10: `undo` and `redo` never change the stored sequence of commands, on
any engine state and on every branch (success, failure, refusal). -/
theorem undo_redo_preserve_record {T : Type} (s : EngineState T) :
    (CommandManager.undo s).1.commands = s.commands ∧
    (CommandManager.redo s).1.commands = s.commands := by
  constructor
  · simp only [CommandManager.undo]
    split
    · cases hg : jsGet s.commands s.index with
      | none => simp [hg]
      | some c =>
          cases hu : c.undo s.target with
          | none => simp [hg, hu]
          | some t => simp [hg, hu]
    · rfl
  · simp only [CommandManager.redo]
    split
    · cases hg : jsGet s.commands (s.index + 1) with
      | none => simp [hg]
      | some c =>
          cases hu : c.execute s.target with
          | none => simp [hg, hu]
          | some t => simp [hg, hu]
    · rfl

/-- C1: on any valid engine state, when the command's `execute` succeeds,
`executeCommand` truncates the record to `index + 1` entries, appends the
command, and increments `index` by one (the target takes the value the
command produced, and no error is reported). -/
theorem execute_truncates_appends_increments {T : Type} (s : EngineState T)
    (c : Command T) (t : T)
    (h1 : -1 ≤ s.index) (h2 : s.index ≤ (s.commands.length : Int) - 1)
    (h : c.execute s.target = some t) :
    CommandManager.executeCommand c s =
      (⟨s.commands.take (s.index + 1).toNat ++ [c], s.index + 1, t⟩, none) ∧
    ((s.commands.take (s.index + 1).toNat).length : Int) = s.index + 1 := by
  constructor
  · simp only [CommandManager.executeCommand, h, jsSpliceKeep]
    rw [if_neg (by omega)]
  · rw [List.length_take]
    omega

/-- Witness for `execute_truncates_appends_increments` at the fresh engine
and the command typing "x". -/
theorem execute_truncates_appends_increments_witness :
    (-1 ≤ (CommandManager.initial ([] : List Char)).index ∧
     (CommandManager.initial ([] : List Char)).index
       ≤ ((CommandManager.initial ([] : List Char)).commands.length : Int) - 1 ∧
     (TypeCommand ['x']).execute (CommandManager.initial ([] : List Char)).target
       = some ['x']) ∧
    CommandManager.executeCommand (TypeCommand ['x'])
        (CommandManager.initial ([] : List Char))
      = (⟨[TypeCommand ['x']], 0, ['x']⟩, none) :=
  ⟨⟨by decide, by decide, rfl⟩,
    (execute_truncates_appends_increments (CommandManager.initial [])
      (TypeCommand ['x']) ['x'] (by decide) (by decide) rfl).1⟩

/-- C8: immediately after a successful `executeCommand` on a valid state,
`index = length - 1`, `canRedo` is `false` and `canUndo` is `true`. -/
theorem execute_postcondition {T : Type} (s : EngineState T) (c : Command T)
    (t : T)
    (h1 : -1 ≤ s.index) (h2 : s.index ≤ (s.commands.length : Int) - 1)
    (h : c.execute s.target = some t) :
    (CommandManager.executeCommand c s).1.index
      = ((CommandManager.executeCommand c s).1.commands.length : Int) - 1 ∧
    canRedo (CommandManager.executeCommand c s).1 = false ∧
    canUndo (CommandManager.executeCommand c s).1 = true := by
  have hs : CommandManager.executeCommand c s
      = (⟨s.commands.take (s.index + 1).toNat ++ [c], s.index + 1, t⟩, none) := by
    simp only [CommandManager.executeCommand, h, jsSpliceKeep]
    rw [if_neg (by omega)]
  rw [hs]
  simp only [canRedo, canUndo, List.length_append, List.length_take,
    List.length_singleton]
  refine ⟨by push_cast; omega, ?_, ?_⟩
  · rw [decide_eq_false_iff_not]
    push_cast
    omega
  · rw [decide_eq_true_eq]
    omega

/-- Witness for `execute_postcondition` at the fresh engine and the command
typing "x". -/
theorem execute_postcondition_witness :
    (-1 ≤ (CommandManager.initial ([] : List Char)).index ∧
     (CommandManager.initial ([] : List Char)).index
       ≤ ((CommandManager.initial ([] : List Char)).commands.length : Int) - 1 ∧
     (TypeCommand ['x']).execute (CommandManager.initial ([] : List Char)).target
       = some ['x']) ∧
    ((CommandManager.executeCommand (TypeCommand ['x'])
        (CommandManager.initial ([] : List Char))).1.index
      = ((CommandManager.executeCommand (TypeCommand ['x'])
          (CommandManager.initial ([] : List Char))).1.commands.length : Int) - 1 ∧
     canRedo (CommandManager.executeCommand (TypeCommand ['x'])
        (CommandManager.initial ([] : List Char))).1 = false ∧
     canUndo (CommandManager.executeCommand (TypeCommand ['x'])
        (CommandManager.initial ([] : List Char))).1 = true) :=
  ⟨⟨by decide, by decide, rfl⟩,
    execute_postcondition (CommandManager.initial []) (TypeCommand ['x']) ['x']
      (by decide) (by decide) rfl⟩

/-- C2: on any valid engine state, `undo` refuses with `NothingToUndo` when
`index = -1`; otherwise it runs the `undo` of the command at position
`index` and then decrements `index`, and if that command throws the cursor
is left unchanged and the error surfaces. -/
theorem undo_spec {T : Type} (s : EngineState T)
    (h1 : -1 ≤ s.index) (h2 : s.index ≤ (s.commands.length : Int) - 1) :
    (s.index = -1 →
      CommandManager.undo s = (s, some EngineError.NothingToUndo)) ∧
    (s.index ≠ -1 → ∃ c, jsGet s.commands s.index = some c ∧
      (∀ t, c.undo s.target = some t →
        CommandManager.undo s = (⟨s.commands, s.index - 1, t⟩, none)) ∧
      (c.undo s.target = none →
        (CommandManager.undo s).1.index = s.index ∧
        (CommandManager.undo s).2 = some EngineError.OpFailed)) := by
  constructor
  · intro h
    simp only [CommandManager.undo]
    rw [if_neg (by omega)]
  · intro hne
    have hge : 0 ≤ s.index := by omega
    have hlt : s.index.toNat < s.commands.length := by omega
    obtain ⟨c, hc⟩ : ∃ c, s.commands.get? s.index.toNat = some c :=
      ⟨_, List.get?_eq_get hlt⟩
    have hg : jsGet s.commands s.index = some c := by
      rw [jsGet, if_neg (by omega), hc]
    refine ⟨c, hg, ?_, ?_⟩
    · intro t ht
      simp only [CommandManager.undo]
      rw [if_pos hge]
      simp only [hg, ht]
    · intro ht
      simp only [CommandManager.undo]
      rw [if_pos hge]
      simp [hg, ht]

/-- Witness for `undo_spec` at a one-command state with the cursor on it. -/
theorem undo_spec_witness :
    (-1 ≤ undoWitnessState.index ∧
     undoWitnessState.index ≤ ((undoWitnessState.commands.length : Int) - 1)) ∧
    ((undoWitnessState.index = -1 →
       CommandManager.undo undoWitnessState
         = (undoWitnessState, some EngineError.NothingToUndo)) ∧
     (undoWitnessState.index ≠ -1 → ∃ c,
       jsGet undoWitnessState.commands undoWitnessState.index = some c ∧
       (∀ t, c.undo undoWitnessState.target = some t →
         CommandManager.undo undoWitnessState
           = (⟨undoWitnessState.commands, undoWitnessState.index - 1, t⟩, none)) ∧
       (c.undo undoWitnessState.target = none →
         (CommandManager.undo undoWitnessState).1.index = undoWitnessState.index ∧
         (CommandManager.undo undoWitnessState).2
           = some EngineError.OpFailed))) :=
  ⟨⟨by decide, by decide⟩, undo_spec undoWitnessState (by decide) (by decide)⟩

/-- C3, counterexample: on the state `redoFailState` (one throwing command,
cursor at `-1`) `redo` sees the command's `execute` throw, yet the cursor is
NOT rolled back to its previous value `-1` — it stays at the incremented
value `0`, refuting the claimed rollback. -/
theorem redo_rollback_counterexample :
    (CommandManager.redo redoFailState).2 = some EngineError.OpFailed ∧
    (CommandManager.redo redoFailState).1.index ≠ redoFailState.index := by
  exact ⟨by decide, by decide⟩

/-- C3, amended: on any valid engine state, `redo` refuses with
`NothingToRedo` when `index = length - 1` (which covers the empty record);
otherwise it increments `index` and runs the `execute` of the command now at
`index`, and if that command throws, `index` KEEPS the incremented value (it
is not rolled back) while the error surfaces. -/
theorem redo_spec_amended {T : Type} (s : EngineState T)
    (h1 : -1 ≤ s.index) (h2 : s.index ≤ (s.commands.length : Int) - 1) :
    (s.index = (s.commands.length : Int) - 1 →
      CommandManager.redo s = (s, some EngineError.NothingToRedo)) ∧
    (s.index ≠ (s.commands.length : Int) - 1 → ∃ c,
      jsGet s.commands (s.index + 1) = some c ∧
      (∀ t, c.execute s.target = some t →
        CommandManager.redo s = (⟨s.commands, s.index + 1, t⟩, none)) ∧
      (c.execute s.target = none →
        CommandManager.redo s
          = (⟨s.commands, s.index + 1, s.target⟩, some EngineError.OpFailed))) := by
  constructor
  · intro h
    simp only [CommandManager.redo]
    rw [if_neg (by omega)]
  · intro hne
    have hguard : s.index + 1 < (s.commands.length : Int) := by omega
    have hlt : (s.index + 1).toNat < s.commands.length := by omega
    obtain ⟨c, hc⟩ : ∃ c, s.commands.get? (s.index + 1).toNat = some c :=
      ⟨_, List.get?_eq_get hlt⟩
    have hg : jsGet s.commands (s.index + 1) = some c := by
      rw [jsGet, if_neg (by omega), hc]
    refine ⟨c, hg, ?_, ?_⟩
    · intro t ht
      simp only [CommandManager.redo]
      rw [if_pos hguard]
      simp only [hg, ht]
    · intro ht
      simp only [CommandManager.redo]
      rw [if_pos hguard]
      simp only [hg, ht]

/-- Witness for `redo_spec_amended` at the one-throwing-command state with
the cursor at `-1`. -/
theorem redo_spec_amended_witness :
    (-1 ≤ redoFailState.index ∧
     redoFailState.index ≤ ((redoFailState.commands.length : Int) - 1)) ∧
    ((redoFailState.index = (redoFailState.commands.length : Int) - 1 →
       CommandManager.redo redoFailState
         = (redoFailState, some EngineError.NothingToRedo)) ∧
     (redoFailState.index ≠ (redoFailState.commands.length : Int) - 1 → ∃ c,
       jsGet redoFailState.commands (redoFailState.index + 1) = some c ∧
       (∀ t, c.execute redoFailState.target = some t →
         CommandManager.redo redoFailState
           = (⟨redoFailState.commands, redoFailState.index + 1, t⟩, none)) ∧
       (c.execute redoFailState.target = none →
         CommandManager.redo redoFailState
           = (⟨redoFailState.commands, redoFailState.index + 1,
               redoFailState.target⟩, some EngineError.OpFailed)))) :=
  ⟨⟨by decide, by decide⟩, redo_spec_amended redoFailState (by decide) (by decide)⟩

/-- C6: every state reachable from a freshly constructed engine by any
sequence of `executeCommand`, `undo` and `redo` calls (successful or
failing) keeps `index` inside `[-1, length - 1]`. -/
theorem reachable_index_in_range {T : Type} (t0 : T) (s : EngineState T)
    (h : Reachable t0 s) :
    -1 ≤ s.index ∧ s.index ≤ (s.commands.length : Int) - 1 := by
  induction h with
  | init => exact ⟨le_refl _, by simp [CommandManager.initial]⟩
  | exec c hr ih =>
      rename_i s
      obtain ⟨ih1, ih2⟩ := ih
      cases hx : c.execute s.target with
      | none => simpa [CommandManager.executeCommand, hx] using And.intro ih1 ih2
      | some t =>
          simp only [CommandManager.executeCommand, hx, jsSpliceKeep]
          rw [if_neg (by omega)]
          simp only [List.length_append, List.length_take, List.length_singleton]
          constructor
          · omega
          · push_cast
            omega
  | undoStep hr ih =>
      rename_i s
      obtain ⟨ih1, ih2⟩ := ih
      simp only [CommandManager.undo]
      by_cases hge : 0 ≤ s.index
      · rw [if_pos hge]
        cases hg : jsGet s.commands s.index with
        | none => simpa [hg] using And.intro ih1 ih2
        | some c =>
            cases hu : c.undo s.target with
            | none => simpa [hg, hu] using And.intro ih1 ih2
            | some t =>
                simp only [hg, hu]
                constructor
                · omega
                · simpa using by omega
      · rw [if_neg hge]
        exact ⟨ih1, ih2⟩
  | redoStep hr ih =>
      rename_i s
      obtain ⟨ih1, ih2⟩ := ih
      simp only [CommandManager.redo]
      by_cases hguard : s.index + 1 < (s.commands.length : Int)
      · rw [if_pos hguard]
        cases hg : jsGet s.commands (s.index + 1) with
        | none =>
            simp only [hg]
            exact ⟨by omega, by simpa using by omega⟩
        | some c =>
            cases hx : c.execute s.target with
            | none =>
                simp only [hg, hx]
                exact ⟨by omega, by simpa using by omega⟩
            | some t =>
                simp only [hg, hx]
                exact ⟨by omega, by simpa using by omega⟩
      · rw [if_neg hguard]
        exact ⟨ih1, ih2⟩

/-- Witness for `reachable_index_in_range` at the state reached by
executing one command and then undoing it. -/
theorem reachable_index_in_range_witness :
    -1 ≤ (CommandManager.undo
        (CommandManager.executeCommand (TypeCommand ['x'])
          (CommandManager.initial ([] : List Char))).1).1.index ∧
    (CommandManager.undo
        (CommandManager.executeCommand (TypeCommand ['x'])
          (CommandManager.initial ([] : List Char))).1).1.index
      ≤ (((CommandManager.undo
          (CommandManager.executeCommand (TypeCommand ['x'])
            (CommandManager.initial ([] : List Char))).1).1.commands.length : Int))
        - 1 :=
  reachable_index_in_range [] _
    (Reachable.undoStep (Reachable.exec (TypeCommand ['x']) Reachable.init))

/-- Appending one more text to the concatenation. -/
theorem concatAll_append (ts : List (List Char)) (t : List Char) :
    concatAll (ts ++ [t]) = concatAll ts ++ t := by
  simp [concatAll, List.foldl_append]

/-- `TypeCommand.undo` deletes exactly the text it typed: deleting
`t.length` times from `pre ++ t` leaves `pre`. -/
theorem deleteN_append (t pre : List Char) :
    deleteN t.length (pre ++ t) = pre := by
  induction t using List.reverseRecOn with
  | nil => simp [deleteN]
  | append_singleton t' a ih =>
      have h1 : (t' ++ [a]).length = t'.length + 1 := by simp
      rw [h1, ← List.append_assoc, deleteN]
      have h2 : TextEditor.delete (pre ++ t' ++ [a]) = pre ++ t' := by
        rw [TextEditor.delete, List.dropLast_concat]
      rw [h2, ih]

/-- Executing a list of `TypeCommand`s from the fresh engine records them in
order, puts the cursor on the last one and leaves the concatenation in the
buffer. -/
theorem runExec_eq (ts : List (List Char)) :
    runExec ts
      = ⟨ts.map TypeCommand, (ts.length : Int) - 1, concatAll ts⟩ := by
  induction ts using List.reverseRecOn with
  | nil => rfl
  | append_singleton ts t ih =>
      have hstep : runExec (ts ++ [t])
          = (CommandManager.executeCommand (TypeCommand t) (runExec ts)).1 := by
        simp [runExec, List.foldl_append]
      rw [hstep, ih]
      have happ : (TypeCommand t).execute (concatAll ts)
          = some (concatAll ts ++ t) := rfl
      simp only [CommandManager.executeCommand, happ]
      rw [jsSpliceKeep, if_neg (by omega)]
      have h1 : ((ts.length : Int) - 1 + 1).toNat = ts.length := by omega
      have h2 : (List.map TypeCommand ts).length = ts.length := List.length_map _ _
      rw [h1, ← h2, List.take_length]
      simp only [EngineState.mk.injEq]
      refine ⟨by simp, ?_, (concatAll_append ts t).symm⟩
      rw [List.length_append, List.length_singleton]
      push_cast
      omega

/-- C7: after executing any list of `TypeCommand`s from a fresh engine and
empty buffer, `undo()` followed by `redo()` restores the buffer to exactly
the contents it had just before the `undo()` call. -/
theorem undo_redo_roundtrip (ts : List (List Char)) :
    (CommandManager.redo (CommandManager.undo (runExec ts)).1).1.target
      = (runExec ts).target := by
  cases ts using List.reverseRecOn with
  | nil => rfl
  | append_singleton ts t =>
      rw [runExec_eq]
      have hm : ((ts ++ [t]).length : Int) - 1 = (ts.length : Int) := by
        rw [List.length_append, List.length_singleton]
        push_cast
        omega
      rw [hm, concatAll_append]
      have hget : jsGet (List.map TypeCommand (ts ++ [t])) (ts.length : Int)
          = some (TypeCommand t) := by
        rw [jsGet, if_neg (by omega)]
        have h1 : ((ts.length : Int)).toNat = ts.length := by omega
        have h2 : (List.map TypeCommand ts).length = ts.length :=
          List.length_map _ _
        rw [h1, List.map_append, ← h2, List.get?_eq_getElem?]
        exact List.getElem?_concat_length _ _
      have hundo : CommandManager.undo
            ⟨List.map TypeCommand (ts ++ [t]), (ts.length : Int),
              concatAll ts ++ t⟩
          = (⟨List.map TypeCommand (ts ++ [t]), (ts.length : Int) - 1,
              concatAll ts⟩, none) := by
        simp only [CommandManager.undo]
        rw [if_pos (by omega)]
        simp only [hget, TypeCommand, deleteN_append]
      have hredo : CommandManager.redo
            ⟨List.map TypeCommand (ts ++ [t]), (ts.length : Int) - 1,
              concatAll ts⟩
          = (⟨List.map TypeCommand (ts ++ [t]), (ts.length : Int),
              concatAll ts ++ t⟩, none) := by
        simp only [CommandManager.redo]
        rw [if_pos (by
          rw [List.length_map, List.length_append, List.length_singleton]
          push_cast
          omega)]
        have h3 : (ts.length : Int) - 1 + 1 = (ts.length : Int) := by omega
        rw [h3]
        simp only [hget, TypeCommand, TextEditor.type]
      rw [hundo]
      simp only
      rw [hredo]

end CommandTs
